import Mathlib

/-!
Verification of the push/pull core of the obsidian-push repository.

The embedding models the module exporting `transformContent`, `pushSingleFile`
and `pushMultiple`, plus the pull-side helpers `computeTargetFilePath` and
`pullFile` of `main.ts`.  Strings are modelled as `List Char`; the filesystem
is an association list from paths to contents together with a list of created
directories.  Asynchronous filesystem failures (`writeFile`, `rename`,
`unlink`) are modelled by an explicit environment value consumed by a push,
and the ambient clock read by `new Date()` is an explicit parameter.
-/

/-- Strings of the embedded program: lists of characters. -/
abbrev Str := List Char

namespace Push

/-! ## Timestamp formatter (`formatTimestamp`) -/

/-- Fields returned by the JavaScript `Date` getters used by `formatTimestamp`:
`getFullYear`, `getMonth` (0-based), `getDate`, `getHours`, `getMinutes`,
`getSeconds`. -/
structure DateT where
  fullYear : Nat
  month : Nat
  date : Nat
  hours : Nat
  minutes : Nat
  seconds : Nat
deriving DecidableEq

/-- Worker for `replaceAll`, structurally recursive on a fuel bounding the
length of the remaining input (each step shortens the input by at least one
character, so the exhaustion branch is unreachable from `replaceAll`). -/
def replaceAllAux (pat rep : Str) : Nat → Str → Str
  | _, [] => []
  | 0, l => l
  | fuel + 1, c :: cs =>
    if 1 ≤ pat.length ∧ List.take pat.length (c :: cs) = pat then
      rep ++ replaceAllAux pat rep fuel (List.drop pat.length (c :: cs))
    else c :: replaceAllAux pat rep fuel cs

/-- Global literal string replacement, the semantics of
JavaScript `String.replace` with a global regex whose pattern is a literal
token: scan left to right, replace each non-overlapping occurrence. -/
def replaceAll (pat rep l : Str) : Str := replaceAllAux pat rep l.length l

/-- JavaScript `String(n).padStart(2, "0")` for a natural number. -/
def pad2 (n : Nat) : Str :=
  if n < 10 then '0' :: (Nat.repr n).data else (Nat.repr n).data

/-- Embedding of `formatTimestamp`: replaces the tokens `YYYY`, `MM`, `DD`,
`HH`, `mm`, `ss` in that order by the corresponding date fields. -/
def formatTimestamp (fmt : Str) (d : DateT) : Str :=
  replaceAll ("ss").data (pad2 d.seconds)
    (replaceAll ("mm").data (pad2 d.minutes)
      (replaceAll ("HH").data (pad2 d.hours)
        (replaceAll ("DD").data (pad2 d.date)
          (replaceAll ("MM").data (pad2 (d.month + 1))
            (replaceAll ("YYYY").data (Nat.repr d.fullYear).data fmt)))))

/-! ## Content transformer (`transformContent`) -/

/-- Embedding of `TransformOptions`.  `forceExtension` is an optional string
(`undefined` is `none`); truthiness of the TS value is tested by
`optTruthy`. -/
structure TransformOptions where
  sanitizeFrontmatter : Bool
  addTimestampHeader : Bool
  timestampFormat : Str
  forceExtension : Option Str
deriving DecidableEq

/-- Truthiness of an optional string in JavaScript: `undefined` and the empty
string are falsy. -/
def optTruthy : Option Str → Bool
  | none => false
  | some s => !s.isEmpty

/-- The opening delimiter `---\n` of the frontmatter regex
`/^---\n[\s\S]*?\n---\n?/`. -/
def fmOpen : Str := ['-', '-', '-', '\n']

/-- The closing delimiter `\n---` of the frontmatter regex. -/
def fmClose : Str := ['\n', '-', '-', '-']

/-- Lazy search for the closing delimiter `\n---`: returns the shortest
middle part together with what follows the delimiter, mirroring the
non-greedy `[\s\S]*?` of the frontmatter regex. -/
def fmFindClose : Str → Option (Str × Str)
  | [] => none
  | c :: cs =>
    if List.take 4 (c :: cs) = fmClose then some ([], List.drop 4 (c :: cs))
    else
      match fmFindClose cs with
      | some (m, r) => some (c :: m, r)
      | none => none

/-- The greedy optional `\n?` that ends the frontmatter regex: consume one
leading newline when present. -/
def dropOptNl : Str → Str
  | '\n' :: r => r
  | r => r

/-- Match-and-strip of the leading frontmatter block: `FRONTMATTER_RE.test`
combined with `content.replace(FRONTMATTER_RE, "")`.  Returns `some` of the
stripped content exactly when the regex matches. -/
def stripFrontmatter (raw : Str) : Option Str :=
  if List.take 4 raw = fmOpen then
    match fmFindClose (List.drop 4 raw) with
    | some (_, rest) => some (dropOptNl rest)
    | none => none
  else none

/-- Embedding of `transformContent`.  The clock value sampled by
`new Date()` inside the timestamp branch is the explicit parameter `d`. -/
def transformContent (raw : Str) (opts : TransformOptions) (d : DateT) :
    Str × Bool :=
  let step1 : Str × Bool :=
    if opts.sanitizeFrontmatter then
      match stripFrontmatter raw with
      | some c => (c, true)
      | none => (raw, false)
    else (raw, false)
  if opts.addTimestampHeader then
    let fmt := if opts.timestampFormat.isEmpty then ("YYYY-MM-DD HH:mm").data
               else opts.timestampFormat
    let stamp := formatTimestamp fmt d
    (("<!-- Pushed: ").data ++ stamp ++ (" -->\n").data ++ step1.1, true)
  else step1

/-! ## Path helpers (Node `path` module, posix semantics)

The embedded paths are slash-separated and never end in a slash (they are
vault file paths and absolute destination files), so `basename` and friends
are modelled on that domain. -/

/-- Predicate for characters other than the path separator. -/
def notSlash (c : Char) : Bool := c != '/'

/-- Predicate for characters other than the dot. -/
def notDot (c : Char) : Bool := c != '.'

/-- Node `path.basename`: the part of the path after the last slash. -/
def basename (p : Str) : Str :=
  (p.reverse.takeWhile notSlash).reverse

/-- Node `path.dirname`: everything before the last slash; `.` when the path
has no slash, `/` when the last slash is the leading one. -/
def dirname (p : Str) : Str :=
  let r := p.reverse
  let pre := r.takeWhile notSlash
  if pre.length = r.length then ['.']
  else
    let rest := (r.drop (pre.length + 1)).reverse
    if rest.isEmpty then ['/'] else rest

/-- Node `path.extname` on a basename: the suffix starting at the last dot,
empty when there is no dot or when the only dot starts the name. -/
def extnameBase (bn : Str) : Str :=
  let r := bn.reverse
  let pre := r.takeWhile notDot
  if pre.length = r.length then []
  else if pre.length + 1 = r.length then []
  else '.' :: pre.reverse

/-- Node `path.extname` of a path. -/
def extname (p : Str) : Str := extnameBase (basename p)

/-- Node `path.join` of a base and a relative path, for a non-empty base
with no trailing slash and a dot-segment-free relative part: concatenation
with a single separating slash. -/
def joinPath (a b : Str) : Str :=
  if a.isEmpty then b
  else if b.isEmpty then a
  else a ++ '/' :: b

/-- JavaScript `relativePath.replace(/\.[^.]+$/, "")`: when the path ends in
a dot followed by one or more non-dot characters, drop that suffix (the
characters after the last dot may include slashes, since `[^.]` excludes
only the dot); otherwise leave the path unchanged. -/
def stripLastExt (p : Str) : Str :=
  let r := p.reverse
  let t := r.takeWhile notDot
  if t.isEmpty then p
  else if t.length = r.length then p
  else (r.drop (t.length + 1)).reverse

/-! ## Decimal rendering of the collision index (template literal) -/

/-- Decimal digit character. -/
def digitChar (n : Nat) : Char := Char.ofNat (48 + n)

/-- Worker for `natToStr`, structurally recursive on a fuel exceeding the
number being rendered (`n / 10 < n` for `n ≥ 10`, so the exhaustion branch
is unreachable from `natToStr`). -/
def natToStrAux : Nat → Nat → Str
  | 0, _ => []
  | fuel + 1, n =>
    if n < 10 then [digitChar n]
    else natToStrAux fuel (n / 10) ++ [digitChar (n % 10)]

/-- Decimal rendering of a natural number, the JavaScript number-to-string
conversion used by the template literal building the collision candidate. -/
def natToStr (n : Nat) : Str := natToStrAux (n + 1) n

/-- Collision candidate path built by the template literal
`${b}-${i}${ext}`. -/
def candPath (b ext : Str) (i : Nat) : Str := b ++ '-' :: natToStr i ++ ext

/-! ## Filesystem model -/

/-- The files of the external filesystem: an association list from absolute
paths to contents; the first entry for a path wins. -/
abbrev FS := List (Str × Str)

/-- Contents of the file at a path, when one exists (`fs.readFile`). -/
def readFS : FS → Str → Option Str
  | [], _ => none
  | (q, c) :: t, p => if q = p then some c else readFS t p

/-- Existence check (`fs.existsSync`). -/
def existsFS (fs : FS) (p : Str) : Bool := (readFS fs p).isSome

/-- Remove every entry for a path (`fs.unlink`). -/
def removeFS : FS → Str → FS
  | [], _ => []
  | e :: t, p => if e.1 = p then removeFS t p else e :: removeFS t p

/-- Filesystem state: files plus the directories created so far
(`mkdir -p` is recorded, its effect on file contents is nil). -/
structure St where
  files : FS
  dirs : List Str
deriving DecidableEq

/-- Write full content to a path (`fs.writeFile`), overwriting. -/
def writeF (st : St) (p c : Str) : St :=
  { st with files := (p, c) :: st.files }

/-- Delete the file at a path (`fs.unlink`). -/
def removeF (st : St) (p : Str) : St :=
  { st with files := removeFS st.files p }

/-- Atomic rename (`fs.rename src dst`): in one step the source entry
disappears and the destination holds the source's full content, replacing
any existing file there. -/
def renameF (st : St) (src dst : Str) : St :=
  match readFS st.files src with
  | some c => writeF (removeF st src) dst c
  | none => st

/-! ## Collision resolver -/

/-- The `while (fs.existsSync(cand)) i++` loop of `pushSingleFile`, embedded
with explicit fuel.  The loop of the source has no bound; the fuel passed by
`resolveCollision` is proven sufficient (`collideLoop_eq_of_free`), so the
exhaustion branch is never taken. -/
def collideLoop (fs : FS) (b ext : Str) : Nat → Nat → Str
  | 0, i => candPath b ext i
  | fuel + 1, i =>
    if existsFS fs (candPath b ext i) then collideLoop fs b ext fuel (i + 1)
    else candPath b ext i

/-- Collision handling of `pushSingleFile`: keep the destination when
overwriting is enabled or the destination is free; otherwise split off the
extension and take the first free candidate `${b}-${i}${ext}` from `i = 1`
upward. -/
def resolveCollision (fs : FS) (overwrite : Bool) (dest : Str) : Str :=
  if !overwrite && existsFS fs dest then
    let ext := extname dest
    let b := List.take (dest.length - ext.length) dest
    collideLoop fs b ext (fs.length + 1) 1
  else dest

/-! ## Single-file push -/

/-- Embedding of `PushContext`. -/
structure PushContext where
  replicateFolders : Bool
  overwriteExisting : Bool
  targetBase : Str
deriving DecidableEq

/-- A vault file (`TFile`) together with its readable content
(`vault.read`). -/
structure FileT where
  path : Str
  content : Str
deriving DecidableEq

/-- Embedding of the `PushError` class: message plus optional Node error
code. -/
structure PushError where
  message : Str
  code : Option Str
deriving DecidableEq

/-- Embedding of `PushResult`. -/
structure PushResult where
  source : Str
  finalPath : Str
  bytes : Nat
  transformed : Bool
deriving DecidableEq

/-- Embedding of `PushFailure`. -/
structure PushFailure where
  file : Str
  error : Str
  code : Option Str
deriving DecidableEq

/-- Behavior of the fallible filesystem calls during one single-file push,
and the clock value sampled by the transform.  `writeFail = some code?`
makes `fs.writeFile` reject with that (optional) Node error code, leaving
`writeLeftover` at the temporary path (`none`: no file was created; `some
part`: a partial file remained).  `renameFail` likewise for `fs.rename`;
`unlinkFails` makes the best-effort cleanup `fs.unlink` fail. -/
structure PushEnv where
  now : DateT
  writeFail : Option (Option Str)
  writeLeftover : Option Str
  renameFail : Option (Option Str)
  unlinkFails : Bool

/-- An environment in which every filesystem call succeeds. -/
def cleanEnv (d : DateT) : PushEnv :=
  { now := d, writeFail := none, writeLeftover := none, renameFail := none,
    unlinkFails := false }

/-- The destination path computed by `pushSingleFile` before collision
handling: flatten to the basename unless folders are replicated, rewrite the
extension when a truthy `forceExtension` is given, join onto the target
base. -/
def destPathOf (file : FileT) (ctx : PushContext) (tr : TransformOptions) :
    Str :=
  let rel0 := if ctx.replicateFolders then file.path else basename file.path
  let rel :=
    match tr.forceExtension with
    | some fe => if fe.isEmpty then rel0 else stripLastExt rel0 ++ fe
    | none => rel0
  joinPath ctx.targetBase rel

/-- Error classification of the catch block of `pushSingleFile`. -/
def errMsgFor (code : Option Str) : Str :=
  if code = some ("EACCES").data ∨ code = some ("EPERM").data then
    ("Permission denied writing destination").data
  else if code = some ("ENOENT").data then
    ("Destination path not found").data
  else ("Failed to write file").data

/-- The `PushError` thrown by the catch block of `pushSingleFile`. -/
def mkPushError (code : Option Str) (finalPath : Str) : PushError :=
  { message := errMsgFor code ++ (": ").data ++ finalPath, code := code }

/-- Best-effort deletion of the temporary file in the catch block:
`if (fs.existsSync(tmp)) try unlink(tmp) catch ignore`. -/
def cleanupTmp (st : St) (tmp : Str) (unlinkFails : Bool) : St :=
  if existsFS st.files tmp then
    if unlinkFails then st else removeF st tmp
  else st

/-- Result of one single-file push: the filesystem states visited after each
filesystem operation (starting from the initial state) and the returned
value or thrown error. -/
structure PushStep where
  states : List St
  out : Except PushError PushResult

/-- The temporary-file suffix `".tmp"` appended to the final path. -/
def tmpSuffix : Str := ['.', 't', 'm', 'p']

/-- UTF-8 byte length (`Buffer.byteLength(content, "utf8")`). -/
def byteLen (s : Str) : Nat := (s.map Char.utf8Size).sum

/-- Embedding of `pushSingleFile`: read and transform the content, compute
the destination, create its parent directory, resolve collisions, write the
full content to the sibling temporary path and atomically rename it onto the
final path; on a write or rename failure, clean up the temporary file and
throw a classified `PushError`. -/
def pushSingleFile (st : St) (file : FileT) (ctx : PushContext)
    (tr : TransformOptions) (env : PushEnv) : PushStep :=
  let res := transformContent file.content tr env.now
  let destPath := destPathOf file ctx tr
  let destDir := dirname destPath
  let st1 : St := { st with dirs := destDir :: st.dirs }
  let finalPath := resolveCollision st1.files ctx.overwriteExisting destPath
  let tmp := finalPath ++ tmpSuffix
  match env.writeFail with
  | some code =>
    let st2 :=
      match env.writeLeftover with
      | some part => writeF st1 tmp part
      | none => st1
    let st3 := cleanupTmp st2 tmp env.unlinkFails
    { states := [st, st1, st2, st3], out := Except.error (mkPushError code finalPath) }
  | none =>
    let st2 := writeF st1 tmp res.1
    match env.renameFail with
    | some code =>
      let st3 := cleanupTmp st2 tmp env.unlinkFails
      { states := [st, st1, st2, st3], out := Except.error (mkPushError code finalPath) }
    | none =>
      let st3 := renameF st2 tmp finalPath
      { states := [st, st1, st2, st3],
        out := Except.ok { source := file.path, finalPath := finalPath,
                           bytes := byteLen res.1, transformed := res.2 } }

/-- The filesystem state a push leaves behind. -/
def finalState (st : St) (step : PushStep) : St := step.states.getLastD st

/-! ## Batch push -/

/-- Embedding of `PushBatchResult`. -/
structure PushBatchResult where
  successes : List PushResult
  failures : List PushFailure
deriving DecidableEq

/-- Embedding of `pushMultiple`: run `pushSingleFile` over the files in
order, catching each thrown error and recording it as a `PushFailure` with
the file's vault path; the per-file environments are indexed by position. -/
def pushMultiple (st : St) (files : List FileT) (ctx : PushContext)
    (tr : TransformOptions) (env : Nat → PushEnv) : PushBatchResult × St :=
  match files with
  | [] => ({ successes := [], failures := [] }, st)
  | f :: rest =>
    let step := pushSingleFile st f ctx tr (env 0)
    let st1 := finalState st step
    let restRes := pushMultiple st1 rest ctx tr (fun i => env (i + 1))
    match step.out with
    | Except.ok r =>
      ({ successes := r :: restRes.1.successes,
         failures := restRes.1.failures }, restRes.2)
    | Except.error e =>
      ({ successes := restRes.1.successes,
         failures := { file := f.path, error := e.message, code := e.code }
           :: restRes.1.failures }, restRes.2)

/-! ## Pull (`main.ts`) -/

/-- Embedding of `computeTargetFilePath` from the plugin layer of `main.ts`,
the pull-side path computation. -/
def computeTargetFilePath (file : FileT) (ctx : PushContext)
    (tr : TransformOptions) : Str :=
  let rel0 := if ctx.replicateFolders then file.path else basename file.path
  let rel :=
    match tr.forceExtension with
    | some fe => if fe.isEmpty then rel0 else stripLastExt rel0 ++ fe
    | none => rel0
  joinPath ctx.targetBase rel

/-- Outcome tag of a pull, mirroring the notices shown by `pullFile`. -/
inductive PullOutcome where
  | pulled
  | pulledFallback
  | notFound
deriving DecidableEq

/-- Embedding of `pullFile`: probe the computed target path; when it is
missing and a truthy forced extension is configured, probe the path computed
without the extension override; overwrite the document content in place with
the resolved file's content, verbatim. -/
def pullFile (st : St) (file : FileT) (ctx : PushContext)
    (tr : TransformOptions) : FileT × PullOutcome :=
  let targetPath := computeTargetFilePath file ctx tr
  match readFS st.files targetPath with
  | some c => ({ file with content := c }, PullOutcome.pulled)
  | none =>
    if optTruthy tr.forceExtension then
      let originalPath := joinPath ctx.targetBase
        (if ctx.replicateFolders then file.path else basename file.path)
      match readFS st.files originalPath with
      | some c => ({ file with content := c }, PullOutcome.pulledFallback)
      | none => (file, PullOutcome.notFound)
    else (file, PullOutcome.notFound)

/-! ## Helper lemmas: takeWhile / dropWhile splits -/

theorem takeWhile_append_cons (q : Char → Bool) (l1 l2 : Str) (c : Char)
    (h1 : ∀ x ∈ l1, q x = true) (hc : q c = false) :
    (l1 ++ c :: l2).takeWhile q = l1 := by
  induction l1 with
  | nil => simp [List.takeWhile, hc]
  | cons a t ih =>
    have ha : q a = true := h1 a (by simp)
    rw [List.cons_append, List.takeWhile_cons_of_pos ha,
      ih (fun x hx => h1 x (by simp [hx]))]

theorem dropWhile_head_false (q : Char → Bool) (l : Str) (c : Char) (t : Str)
    (h : l.dropWhile q = c :: t) : q c = false := by
  induction l with
  | nil => simp [List.dropWhile] at h
  | cons a s ih =>
    by_cases ha : q a = true
    · exact ih (by simpa [List.dropWhile, ha] using h)
    · simp only [List.dropWhile, Bool.not_eq_true] at ha
      rw [List.dropWhile_cons, ha] at h
      cases h
      simpa using ha

/-- A list splits at its `takeWhile` boundary: when the `dropWhile` part is
non-empty, its head fails the predicate. -/
theorem takeWhile_split (q : Char → Bool) (l : Str)
    (h : (l.takeWhile q).length < l.length) :
    ∃ c t, l = l.takeWhile q ++ c :: t ∧ q c = false := by
  have hsplit : l.takeWhile q ++ l.dropWhile q = l :=
    List.takeWhile_append_dropWhile q l
  cases hd : l.dropWhile q with
  | nil =>
    exfalso
    rw [hd, List.append_nil] at hsplit
    rw [hsplit] at h
    omega
  | cons c t =>
    refine ⟨c, t, ?_, dropWhile_head_false q l c t hd⟩
    conv_lhs => rw [← hsplit, hd]

theorem mem_takeWhile_pred (q : Char → Bool) (l : Str) (x : Char)
    (h : x ∈ l.takeWhile q) : q x = true := List.mem_takeWhile_imp h

/-! ## Helper lemmas: the filesystem association list -/

theorem readFS_cons_self (fs : FS) (p c : Str) :
    readFS ((p, c) :: fs) p = some c := by simp [readFS]

theorem readFS_cons_ne (fs : FS) (p c q : Str) (h : q ≠ p) :
    readFS ((p, c) :: fs) q = readFS fs q := by
  have hpq : p ≠ q := fun hc => h hc.symm
  simp [readFS, hpq]

theorem readFS_removeFS_ne (fs : FS) (p q : Str) (h : q ≠ p) :
    readFS (removeFS fs p) q = readFS fs q := by
  induction fs with
  | nil => rfl
  | cons e t ih =>
    obtain ⟨a, b⟩ := e
    by_cases he : a = p
    · subst he
      have haq : a ≠ q := fun hc => h hc.symm
      simp [removeFS, readFS, ih, haq]
    · by_cases haq : a = q
      · simp [removeFS, readFS, he, haq, h]
      · simp [removeFS, readFS, he, haq, ih]

theorem readFS_removeFS_self (fs : FS) (p : Str) :
    readFS (removeFS fs p) p = none := by
  induction fs with
  | nil => rfl
  | cons e t ih =>
    obtain ⟨a, b⟩ := e
    by_cases he : a = p
    · simp [removeFS, he, ih]
    · simp [removeFS, readFS, he, ih]

theorem existsFS_mem_keys (fs : FS) (p : Str) (h : existsFS fs p = true) :
    p ∈ fs.map Prod.fst := by
  induction fs with
  | nil => simp [existsFS, readFS] at h
  | cons e t ih =>
    by_cases he : e.1 = p
    · simp [he]
    · simp only [existsFS, readFS, he, if_false] at h
      simp [ih h]

/-- Pigeonhole for the existence check: a duplicate-free list of paths that
all exist is no longer than the file table. -/
theorem nodup_exists_length_le (fs : FS) (ps : List Str) (hnd : ps.Nodup)
    (hex : ∀ p ∈ ps, existsFS fs p = true) : ps.length ≤ fs.length := by
  have hsub : ps ⊆ fs.map Prod.fst := fun p hp => existsFS_mem_keys fs p (hex p hp)
  have := (hnd.subperm hsub).length_le
  simpa using this

/-! ## Helper lemmas: decimal rendering -/

theorem digitChar_ne_dot (d : Nat) (hd : d < 10) : digitChar d ≠ '.' := by
  interval_cases d <;> decide

theorem digitChar_toNat (d : Nat) (hd : d < 10) : (digitChar d).toNat = 48 + d := by
  interval_cases d <;> decide

theorem natToStrAux_fuel_irrel (f1 : Nat) : ∀ f2 n, n < f1 → n < f2 →
    natToStrAux f1 n = natToStrAux f2 n := by
  induction f1 with
  | zero => intro f2 n h1; omega
  | succ f ih =>
    intro f2 n h1 h2
    cases f2 with
    | zero => omega
    | succ f2' =>
      by_cases hn : n < 10
      · simp [natToStrAux, hn]
      · have hdiv : n / 10 < n := Nat.div_lt_self (by omega) (by omega)
        simp only [natToStrAux, hn, if_false]
        rw [ih f2' (n / 10) (by omega) (by omega)]

theorem natToStr_eq_aux (fuel n : Nat) (h : n < fuel) :
    natToStr n = natToStrAux fuel n :=
  natToStrAux_fuel_irrel (n + 1) fuel n (by omega) h

theorem mem_natToStrAux (fuel : Nat) : ∀ n c, c ∈ natToStrAux fuel n →
    ∃ d, d < 10 ∧ c = digitChar d := by
  induction fuel with
  | zero => intro n c hc; simp [natToStrAux] at hc
  | succ f ih =>
    intro n c hc
    by_cases hn : n < 10
    · simp [natToStrAux, hn] at hc
      exact ⟨n, hn, hc⟩
    · simp only [natToStrAux, hn, if_false, List.mem_append] at hc
      rcases hc with hc | hc
      · exact ih (n / 10) c hc
      · simp at hc
        exact ⟨n % 10, Nat.mod_lt n (by omega), hc⟩

theorem dot_notMem_natToStr (n : Nat) : '.' ∉ natToStr n := by
  intro hmem
  obtain ⟨d, hd, hc⟩ := mem_natToStrAux (n + 1) n '.' hmem
  exact digitChar_ne_dot d hd hc.symm

theorem natToStrAux_ne_nil (fuel n : Nat) (h : n < fuel) :
    natToStrAux fuel n ≠ [] := by
  cases fuel with
  | zero => omega
  | succ f =>
    by_cases hn : n < 10 <;> simp [natToStrAux, hn]

theorem natToStr_ne_nil (n : Nat) : natToStr n ≠ [] :=
  natToStrAux_ne_nil (n + 1) n (by omega)

/-- Decoding step used to invert the decimal rendering. -/
def digitVal (a : Nat) (c : Char) : Nat := a * 10 + (c.toNat - 48)

theorem foldl_natToStrAux (fuel : Nat) : ∀ n a, n < fuel →
    List.foldl digitVal a (natToStrAux fuel n)
      = a * 10 ^ (natToStrAux fuel n).length + n := by
  induction fuel with
  | zero => intro n a h; omega
  | succ f ih =>
    intro n a h
    by_cases hn : n < 10
    · simp [natToStrAux, hn, List.foldl, digitVal, digitChar_toNat n hn]
    · have hdiv : n / 10 < n := Nat.div_lt_self (by omega) (by omega)
      have hmod : n % 10 < 10 := Nat.mod_lt n (by omega)
      simp only [natToStrAux, hn, if_false]
      rw [List.foldl_append, ih (n / 10) a (by omega)]
      simp [List.foldl, digitVal, digitChar_toNat (n % 10) hmod,
        List.length_append, pow_succ]
      have := Nat.div_add_mod n 10
      ring_nf
      omega

theorem natToStr_injective (m n : Nat) (h : natToStr m = natToStr n) : m = n := by
  have hm := foldl_natToStrAux (m + 1) m 0 (by omega)
  have hn := foldl_natToStrAux (n + 1) n 0 (by omega)
  have : List.foldl digitVal 0 (natToStr m) = List.foldl digitVal 0 (natToStr n) := by
    rw [h]
  rw [natToStr, natToStr] at this
  omega

/-! ## Helper lemmas: candidate paths -/

theorem candPath_inj (b ext : Str) (i j : Nat)
    (h : candPath b ext i = candPath b ext j) : i = j := by
  unfold candPath at h
  simp only [List.cons_append, List.append_assoc] at h
  have h2 := List.append_cancel_left h
  injection h2 with h3 h4
  exact natToStr_injective i j (List.append_cancel_right h4)

theorem count_dot_candPath (b ext : Str) (i : Nat) :
    (candPath b ext i).count '.' = b.count '.' + ext.count '.' := by
  have h0 : (natToStr i).count '.' = 0 :=
    List.count_eq_zero.mpr (dot_notMem_natToStr i)
  simp [candPath, List.count_append, List.count_cons, h0]

theorem count_dot_tmpSuffix (p : Str) :
    (p ++ tmpSuffix).count '.' = p.count '.' + 1 := by
  rw [List.count_append]
  rfl

theorem cand_ne_append_tmp (b ext q : Str) (j : Nat)
    (hq : q.count '.' = b.count '.' + ext.count '.') :
    candPath b ext j ≠ q ++ tmpSuffix := by
  intro h
  have hc := congrArg (List.count '.') h
  rw [count_dot_tmpSuffix, hq, count_dot_candPath b ext j] at hc
  omega

theorem ne_append_tmp (p : Str) : p ≠ p ++ tmpSuffix := by
  intro h
  have := congrArg List.length h
  simp [tmpSuffix] at this

/-! ## Helper lemmas: basename and extname shapes -/

theorem basename_suffix (p : Str) : ∃ u, u ++ basename p = p := by
  refine ⟨(p.reverse.dropWhile notSlash).reverse, ?_⟩
  rw [basename, ← List.reverse_append, List.takeWhile_append_dropWhile,
    List.reverse_reverse]

theorem extnameBase_suffix (bn : Str) : ∃ u, u ++ extnameBase bn = bn := by
  by_cases h1 : (bn.reverse.takeWhile notDot).length = bn.reverse.length
  · refine ⟨bn, ?_⟩
    simp only [extnameBase]
    rw [if_pos h1, List.append_nil]
  · by_cases h2 : (bn.reverse.takeWhile notDot).length + 1 = bn.reverse.length
    · refine ⟨bn, ?_⟩
      simp only [extnameBase]
      rw [if_neg h1, if_pos h2, List.append_nil]
    · have hle : (bn.reverse.takeWhile notDot).length ≤ bn.reverse.length :=
        List.Sublist.length_le (List.takeWhile_sublist notDot)
      have hlt : (bn.reverse.takeWhile notDot).length < bn.reverse.length := by
        omega
      obtain ⟨c, t, hsplit, hc⟩ := takeWhile_split notDot bn.reverse hlt
      have hcdot : c = '.' := by simpa [notDot] using hc
      subst hcdot
      refine ⟨t.reverse, ?_⟩
      simp only [extnameBase]
      rw [if_neg h1, if_neg h2]
      calc t.reverse ++ '.' :: (bn.reverse.takeWhile notDot).reverse
          = (bn.reverse.takeWhile notDot ++ '.' :: t).reverse := by simp
        _ = bn.reverse.reverse := by rw [← hsplit]
        _ = bn := List.reverse_reverse bn

theorem extname_suffix (p : Str) : ∃ u, u ++ extname p = p := by
  obtain ⟨u1, h1⟩ := basename_suffix p
  obtain ⟨u2, h2⟩ := extnameBase_suffix (basename p)
  exact ⟨u1 ++ u2, by rw [extname, List.append_assoc, h2, h1]⟩

theorem take_of_suffix (dest u ext : Str) (h : u ++ ext = dest) :
    List.take (dest.length - ext.length) dest = u := by
  subst h
  rw [List.length_append]
  have : u.length + ext.length - ext.length = u.length := by omega
  rw [this, List.take_left]

/-- The destination splits as the slice kept by the collision loop followed
by its extension. -/
theorem dest_split (dest : Str) :
    List.take (dest.length - (extname dest).length) dest ++ extname dest = dest := by
  obtain ⟨u, hu⟩ := extname_suffix dest
  rw [take_of_suffix dest u (extname dest) hu]
  exact hu

theorem extname_shape (p : Str) :
    extname p = [] ∨ ∃ t, extname p = '.' :: t := by
  unfold extname
  by_cases h1 : ((basename p).reverse.takeWhile notDot).length = (basename p).reverse.length
  · left
    simp only [extnameBase]
    rw [if_pos h1]
  · by_cases h2 : ((basename p).reverse.takeWhile notDot).length + 1 = (basename p).reverse.length
    · left
      simp only [extnameBase]
      rw [if_neg h1, if_pos h2]
    · right
      refine ⟨((basename p).reverse.takeWhile notDot).reverse, ?_⟩
      simp only [extnameBase]
      rw [if_neg h1, if_neg h2]

theorem dest_ne_cand (dest b ext : Str) (j : Nat) (h : b ++ ext = dest) :
    dest ≠ candPath b ext j := by
  intro hc
  have hlen := congrArg List.length hc
  rw [← h] at hlen
  simp only [candPath, List.length_append, List.length_cons] at hlen
  have hnz : (natToStr j).length ≠ 0 := by
    intro h0
    exact natToStr_ne_nil j (List.length_eq_zero.mp h0)
  omega

/-! ## Helper lemmas: collision loop -/

theorem collideLoop_eq_of_free (fs : FS) (b ext : Str) (i0 : Nat)
    (hfree : existsFS fs (candPath b ext i0) = false) :
    ∀ fuel i, i ≤ i0 →
    (∀ j, i ≤ j → j < i0 → existsFS fs (candPath b ext j) = true) →
    i0 - i ≤ fuel → collideLoop fs b ext fuel i = candPath b ext i0 := by
  intro fuel
  induction fuel with
  | zero =>
    intro i hi hall hf
    have : i = i0 := by omega
    subst this
    rfl
  | succ f ih =>
    intro i hi hall hf
    by_cases hii : i = i0
    · subst hii
      simp [collideLoop, hfree]
    · have hex : existsFS fs (candPath b ext i) = true :=
        hall i le_rfl (by omega)
      simp only [collideLoop, hex, if_true]
      exact ih (i + 1) (by omega) (fun j hj1 hj2 => hall j (by omega) hj2) (by omega)

theorem resolveCollision_id (fs : FS) (ov : Bool) (dest : Str)
    (h : ov = true ∨ existsFS fs dest = false) :
    resolveCollision fs ov dest = dest := by
  rcases h with h | h <;> simp [resolveCollision, h]

/-- With overwriting disabled and an occupied destination, the collision
resolver returns exactly the candidate whose index is the least free one. -/
theorem resolveCollision_eq_cand (fs : FS) (dest b ext : Str) (i0 : Nat)
    (he : ext = extname dest)
    (hb : b = List.take (dest.length - ext.length) dest)
    (hdest : existsFS fs dest = true) (h1 : 1 ≤ i0)
    (hfree : existsFS fs (candPath b ext i0) = false)
    (hall : ∀ j, 1 ≤ j → j < i0 → existsFS fs (candPath b ext j) = true) :
    resolveCollision fs false dest = candPath b ext i0 := by
  have hinj : Function.Injective (fun t => candPath b ext (t + 1)) := by
    intro x y hxy
    have := candPath_inj b ext (x + 1) (y + 1) hxy
    omega
  have hnd : ((List.range (i0 - 1)).map (fun t => candPath b ext (t + 1))).Nodup :=
    (List.nodup_range (i0 - 1)).map hinj
  have hex : ∀ p ∈ (List.range (i0 - 1)).map (fun t => candPath b ext (t + 1)),
      existsFS fs p = true := by
    intro p hp
    simp only [List.mem_map, List.mem_range] at hp
    obtain ⟨t, ht, rfl⟩ := hp
    exact hall (t + 1) (by omega) (by omega)
  have hbound := nodup_exists_length_le fs _ hnd hex
  rw [List.length_map, List.length_range] at hbound
  simp only [resolveCollision, hdest, Bool.not_false, Bool.true_and, if_true]
  rw [← he, ← hb]
  exact collideLoop_eq_of_free fs b ext i0 hfree (fs.length + 1) 1 h1
    (fun j hj1 hj2 => hall j hj1 hj2) (by omega)

/-! ## Helper lemmas: single-file push -/

theorem pushSingleFile_clean_out (st : St) (f : FileT) (ctx : PushContext)
    (tr : TransformOptions) (env : PushEnv)
    (hw : env.writeFail = none) (hr : env.renameFail = none) :
    (pushSingleFile st f ctx tr env).out = Except.ok
      { source := f.path,
        finalPath := resolveCollision st.files ctx.overwriteExisting
          (destPathOf f ctx tr),
        bytes := byteLen (transformContent f.content tr env.now).1,
        transformed := (transformContent f.content tr env.now).2 } := by
  simp [pushSingleFile, hw, hr]

theorem pushSingleFile_clean_state (st : St) (f : FileT) (ctx : PushContext)
    (tr : TransformOptions) (env : PushEnv)
    (hw : env.writeFail = none) (hr : env.renameFail = none) :
    finalState st (pushSingleFile st f ctx tr env) =
      { files := (resolveCollision st.files ctx.overwriteExisting
            (destPathOf f ctx tr), (transformContent f.content tr env.now).1)
          :: removeFS st.files (resolveCollision st.files ctx.overwriteExisting
            (destPathOf f ctx tr) ++ tmpSuffix),
        dirs := dirname (destPathOf f ctx tr) :: st.dirs } := by
  simp only [pushSingleFile, hw, hr, finalState, renameF, writeF, removeF]
  simp [readFS, removeFS]

theorem dest_ne_cand_tmp (dest b ext : Str) (k : Nat) (h : b ++ ext = dest) :
    dest ≠ candPath b ext k ++ tmpSuffix := by
  intro hc
  have h1 := congrArg (List.count '.') hc
  rw [count_dot_tmpSuffix, count_dot_candPath, ← h, List.count_append] at h1
  omega

/-- One clean push against a state holding the destination and exactly the
candidates below `k` succeeds with final path `candPath b ext k` and leaves a
state holding the destination and exactly the candidates below `k + 1`. -/
theorem push_step_cand (st : St) (f : FileT) (ctx : PushContext)
    (tr : TransformOptions) (env : PushEnv) (k : Nat) (dest b ext : Str)
    (hdef : dest = destPathOf f ctx tr)
    (he : ext = extname dest)
    (hb : b = List.take (dest.length - ext.length) dest)
    (hov : ctx.overwriteExisting = false)
    (hw : env.writeFail = none) (hr : env.renameFail = none) (hk : 1 ≤ k)
    (hdest : existsFS st.files dest = true)
    (hinv : ∀ j, 1 ≤ j → (existsFS st.files (candPath b ext j) = true ↔ j < k)) :
    (pushSingleFile st f ctx tr env).out = Except.ok
      { source := f.path, finalPath := candPath b ext k,
        bytes := byteLen (transformContent f.content tr env.now).1,
        transformed := (transformContent f.content tr env.now).2 } ∧
    existsFS (finalState st (pushSingleFile st f ctx tr env)).files dest = true ∧
    (∀ j, 1 ≤ j →
      (existsFS (finalState st (pushSingleFile st f ctx tr env)).files
          (candPath b ext j) = true ↔ j < k + 1)) := by
  have hsplit : b ++ ext = dest := by
    rw [hb, he]
    exact dest_split dest
  have hfree : existsFS st.files (candPath b ext k) = false := by
    have h1 := hinv k hk
    by_cases h2 : existsFS st.files (candPath b ext k) = true
    · exact absurd (h1.mp h2) (lt_irrefl k)
    · simpa using h2
  have hall : ∀ j, 1 ≤ j → j < k → existsFS st.files (candPath b ext j) = true :=
    fun j hj1 hjk => (hinv j hj1).mpr hjk
  have hrc : resolveCollision st.files ctx.overwriteExisting dest
      = candPath b ext k := by
    rw [hov]
    exact resolveCollision_eq_cand st.files dest b ext k he hb hdest hk hfree hall
  have hrc' : resolveCollision st.files ctx.overwriteExisting
      (destPathOf f ctx tr) = candPath b ext k := by rw [← hdef, hrc]
  refine ⟨?_, ?_, ?_⟩
  · rw [pushSingleFile_clean_out st f ctx tr env hw hr, hrc']
  · rw [pushSingleFile_clean_state st f ctx tr env hw hr]
    have h1 : dest ≠ candPath b ext k := dest_ne_cand dest b ext k hsplit
    have h2 : dest ≠ candPath b ext k ++ tmpSuffix :=
      dest_ne_cand_tmp dest b ext k hsplit
    simp only [existsFS, hrc']
    rw [readFS_cons_ne _ _ _ _ h1, readFS_removeFS_ne _ _ _ h2]
    exact hdest
  · intro j hj1
    rw [pushSingleFile_clean_state st f ctx tr env hw hr]
    by_cases hjk : j = k
    · subst hjk
      simp only [existsFS, hrc']
      rw [readFS_cons_self]
      simp
    · have h1 : candPath b ext j ≠ candPath b ext k :=
        fun hc => hjk (candPath_inj b ext j k hc)
      have h2 : candPath b ext j ≠ candPath b ext k ++ tmpSuffix :=
        cand_ne_append_tmp b ext (candPath b ext k) j
          (count_dot_candPath b ext k)
      simp only [existsFS, hrc']
      rw [readFS_cons_ne _ _ _ _ h1, readFS_removeFS_ne _ _ _ h2]
      have h3 := hinv j hj1
      constructor
      · intro h4
        have := h3.mp h4
        omega
      · intro h4
        exact h3.mpr (by omega)

/-- The collision candidate `${b}-${i}${ext}` of a destination path, with
the base and extension split exactly as `pushSingleFile` computes them. -/
def destCand (dest : Str) (i : Nat) : Str :=
  candPath (List.take (dest.length - (extname dest).length) dest) (extname dest) i

/-- The final-path pattern of the j-th consecutive push of one logical path:
the destination itself first, then the numbered candidates. -/
def collisionSeq (dest : Str) (j : Nat) : Str :=
  if j = 0 then dest else destCand dest j

/-- The first clean push into a state where the destination and every
candidate are free writes the destination itself and leaves a state holding
the destination and no candidate. -/
theorem push_step_first (st : St) (f : FileT) (ctx : PushContext)
    (tr : TransformOptions) (env : PushEnv) (dest b ext : Str)
    (hdef : dest = destPathOf f ctx tr)
    (he : ext = extname dest)
    (hb : b = List.take (dest.length - ext.length) dest)
    (hw : env.writeFail = none) (hr : env.renameFail = none)
    (hdest : existsFS st.files dest = false)
    (hfree : ∀ j, 1 ≤ j → existsFS st.files (candPath b ext j) = false) :
    (pushSingleFile st f ctx tr env).out = Except.ok
      { source := f.path, finalPath := dest,
        bytes := byteLen (transformContent f.content tr env.now).1,
        transformed := (transformContent f.content tr env.now).2 } ∧
    existsFS (finalState st (pushSingleFile st f ctx tr env)).files dest = true ∧
    (∀ j, 1 ≤ j →
      (existsFS (finalState st (pushSingleFile st f ctx tr env)).files
          (candPath b ext j) = true ↔ j < 1)) := by
  have hsplit : b ++ ext = dest := by
    rw [hb, he]
    exact dest_split dest
  have hcount : dest.count '.' = b.count '.' + ext.count '.' := by
    rw [← hsplit, List.count_append]
  have hrc' : resolveCollision st.files ctx.overwriteExisting
      (destPathOf f ctx tr) = dest := by
    rw [← hdef]
    exact resolveCollision_id st.files ctx.overwriteExisting dest (Or.inr hdest)
  refine ⟨?_, ?_, ?_⟩
  · rw [pushSingleFile_clean_out st f ctx tr env hw hr, hrc']
  · rw [pushSingleFile_clean_state st f ctx tr env hw hr]
    simp only [existsFS, hrc']
    rw [readFS_cons_self]
    rfl
  · intro j hj1
    rw [pushSingleFile_clean_state st f ctx tr env hw hr]
    have h1 : candPath b ext j ≠ dest :=
      fun hc => dest_ne_cand dest b ext j hsplit hc.symm
    have h2 : candPath b ext j ≠ dest ++ tmpSuffix :=
      cand_ne_append_tmp b ext dest j hcount
    simp only [existsFS, hrc']
    rw [readFS_cons_ne _ _ _ _ h1, readFS_removeFS_ne _ _ _ h2]
    constructor
    · intro h4
      have h5 : existsFS st.files (candPath b ext j) = true := h4
      rw [hfree j hj1] at h5
      cases h5
    · intro h4
      omega

/-- Clean pushes of the same file, starting from a state holding the
destination and exactly the candidates below `k`, return the candidates
`k, k + 1, ...` in order and report no failure. -/
theorem pushN_tail (f : FileT) (ctx : PushContext) (tr : TransformOptions)
    (dest b ext : Str) (hdef : dest = destPathOf f ctx tr)
    (he : ext = extname dest)
    (hb : b = List.take (dest.length - ext.length) dest)
    (hov : ctx.overwriteExisting = false) :
    ∀ (m : Nat) (st : St) (k : Nat) (env : Nat → PushEnv),
      (∀ i, (env i).writeFail = none ∧ (env i).renameFail = none) →
      1 ≤ k → existsFS st.files dest = true →
      (∀ j, 1 ≤ j → (existsFS st.files (candPath b ext j) = true ↔ j < k)) →
      (pushMultiple st (List.replicate m f) ctx tr env).1.successes.map
          (fun r => r.finalPath)
        = (List.range m).map (fun t => candPath b ext (k + t)) ∧
      (pushMultiple st (List.replicate m f) ctx tr env).1.failures = [] := by
  intro m
  induction m with
  | zero =>
    intro st k env henv hk hdest hinv
    simp [pushMultiple]
  | succ m ih =>
    intro st k env henv hk hdest hinv
    obtain ⟨hout, hdest1, hinv1⟩ := push_step_cand st f ctx tr (env 0) k dest
      b ext hdef he hb hov (henv 0).1 (henv 0).2 hk hdest hinv
    obtain ⟨hs, hf⟩ := ih (finalState st (pushSingleFile st f ctx tr (env 0)))
      (k + 1) (fun i => env (i + 1)) (fun i => henv (i + 1)) (by omega)
      hdest1 hinv1
    constructor
    · simp only [List.replicate_succ, pushMultiple, hout, List.map_cons]
      rw [hs, List.range_succ_eq_map, List.map_cons, List.map_map]
      simp only [Nat.add_zero]
      congr 1
      apply List.map_congr_left
      intro t ht
      simp only [Function.comp_apply]
      congr 1
      omega
    · simp only [List.replicate_succ, pushMultiple, hout]
      exact hf

/-! ## Helper lemmas: frontmatter matcher -/

theorem take_fmOpen (x : Str) : List.take 4 (fmOpen ++ x) = fmOpen := by
  rw [show (4 : Nat) = fmOpen.length from rfl]
  exact List.take_left fmOpen x

theorem drop_fmOpen (x : Str) : List.drop 4 (fmOpen ++ x) = x := by
  rw [show (4 : Nat) = fmOpen.length from rfl]
  exact List.drop_left fmOpen x

theorem take_fmClose (x : Str) : List.take 4 (fmClose ++ x) = fmClose := by
  rw [show (4 : Nat) = fmClose.length from rfl]
  exact List.take_left fmClose x

theorem drop_fmClose (x : Str) : List.drop 4 (fmClose ++ x) = x := by
  rw [show (4 : Nat) = fmClose.length from rfl]
  exact List.drop_left fmClose x

theorem fmFindClose_cons (c : Char) (cs : Str) :
    fmFindClose (c :: cs) =
      if List.take 4 (c :: cs) = fmClose then some ([], List.drop 4 (c :: cs))
      else
        match fmFindClose cs with
        | some (m, r) => some (c :: m, r)
        | none => none := rfl

theorem fmFindClose_sound : ∀ (l m r : Str), fmFindClose l = some (m, r) →
    l = m ++ fmClose ++ r := by
  intro l
  induction l with
  | nil => intro m r h; simp [fmFindClose] at h
  | cons c cs ih =>
    intro m r h
    by_cases h4 : List.take 4 (c :: cs) = fmClose
    · simp only [fmFindClose, h4, if_true, Option.some.injEq, Prod.mk.injEq] at h
      obtain ⟨hm, hr⟩ := h
      subst hm
      subst hr
      conv_lhs => rw [← List.take_append_drop 4 (c :: cs)]
      rw [h4]
      simp
    · simp only [fmFindClose, h4, if_false] at h
      cases hf : fmFindClose cs with
      | none => rw [hf] at h; cases h
      | some pr =>
        obtain ⟨m', r'⟩ := pr
        rw [hf] at h
        simp only [Option.some.injEq, Prod.mk.injEq] at h
        obtain ⟨hm, hr⟩ := h
        subst hm
        subst hr
        have := ih m' r' hf
        rw [show c :: cs = c :: (m' ++ fmClose ++ r') from by rw [← this]]
        simp

theorem fmFindClose_some_of : ∀ (m l r : Str), l = m ++ fmClose ++ r →
    (fmFindClose l).isSome = true := by
  intro m
  induction m with
  | nil =>
    intro l r h
    simp only [List.nil_append] at h
    subst h
    show (fmFindClose ('\n' :: '-' :: '-' :: '-' :: r)).isSome = true
    rw [fmFindClose_cons,
      if_pos (show List.take 4 ('\n' :: '-' :: '-' :: '-' :: r) = fmClose from rfl)]
    rfl
  | cons a m' ih =>
    intro l r h
    subst h
    show (fmFindClose (a :: (m' ++ fmClose ++ r))).isSome = true
    rw [fmFindClose_cons]
    by_cases h4 : List.take 4 (a :: (m' ++ fmClose ++ r)) = fmClose
    · rw [if_pos h4]
      rfl
    · rw [if_neg h4]
      have hs := ih (m' ++ fmClose ++ r) r rfl
      cases hf : fmFindClose (m' ++ fmClose ++ r) with
      | none => rw [hf] at hs; cases hs
      | some pr =>
        obtain ⟨m0, r0⟩ := pr
        rfl

theorem fmFindClose_minimal : ∀ (l m r : Str), fmFindClose l = some (m, r) →
    ∀ m' r', l = m' ++ fmClose ++ r' → m.length ≤ m'.length := by
  intro l
  induction l with
  | nil => intro m r h; simp [fmFindClose] at h
  | cons c cs ih =>
    intro m r h m' r' hl
    by_cases h4 : List.take 4 (c :: cs) = fmClose
    · simp only [fmFindClose, h4, if_true, Option.some.injEq, Prod.mk.injEq] at h
      obtain ⟨hm, hr⟩ := h
      subst hm
      exact Nat.zero_le _
    · cases m' with
      | nil =>
        exfalso
        apply h4
        simp only [List.nil_append] at hl
        rw [hl]
        exact take_fmClose r'
      | cons a m'' =>
        simp only [fmFindClose, h4, if_false] at h
        cases hf : fmFindClose cs with
        | none => rw [hf] at h; cases h
        | some pr =>
          obtain ⟨m0, r0⟩ := pr
          rw [hf] at h
          simp only [Option.some.injEq, Prod.mk.injEq] at h
          obtain ⟨hm, hr⟩ := h
          subst hm
          rw [List.cons_append] at hl
          injection hl with hca hcs
          have := ih m0 r0 hf m'' r' hcs
          simp only [List.length_cons]
          omega

theorem stripFrontmatter_isSome_iff (raw : Str) :
    (stripFrontmatter raw).isSome = true ↔
      ∃ mid rest, raw = fmOpen ++ mid ++ fmClose ++ rest := by
  constructor
  · intro h
    unfold stripFrontmatter at h
    by_cases h4 : List.take 4 raw = fmOpen
    · rw [if_pos h4] at h
      cases hf : fmFindClose (List.drop 4 raw) with
      | none => rw [hf] at h; cases h
      | some pr =>
        obtain ⟨m, r⟩ := pr
        have hsound := fmFindClose_sound _ m r hf
        refine ⟨m, r, ?_⟩
        conv_lhs => rw [← List.take_append_drop 4 raw]
        rw [h4, hsound]
        simp [List.append_assoc]
    · rw [if_neg h4] at h
      cases h
  · rintro ⟨mid, rest, hdecomp⟩
    unfold stripFrontmatter
    have h4 : List.take 4 raw = fmOpen := by
      rw [hdecomp]
      exact take_fmOpen (mid ++ fmClose ++ rest)
    have hdrop : List.drop 4 raw = mid ++ fmClose ++ rest := by
      rw [hdecomp]
      exact drop_fmOpen (mid ++ fmClose ++ rest)
    rw [if_pos h4]
    have hs := fmFindClose_some_of mid (List.drop 4 raw) rest hdrop
    cases hf : fmFindClose (List.drop 4 raw) with
    | none => rw [hf] at hs; cases hs
    | some pr => obtain ⟨m0, r0⟩ := pr; simp

/-- On a lazily matched decomposition, `stripFrontmatter` removes exactly
the leading block and the optional following newline. -/
theorem stripFrontmatter_eq (raw mid rest : Str)
    (hdecomp : raw = fmOpen ++ mid ++ fmClose ++ rest)
    (hmin : ∀ mid' rest', mid ++ fmClose ++ rest = mid' ++ fmClose ++ rest' →
      mid.length ≤ mid'.length) :
    stripFrontmatter raw = some (dropOptNl rest) := by
  have h4 : List.take 4 raw = fmOpen := by
    rw [hdecomp]
    exact take_fmOpen (mid ++ fmClose ++ rest)
  have hdrop : List.drop 4 raw = mid ++ fmClose ++ rest := by
    rw [hdecomp]
    exact drop_fmOpen (mid ++ fmClose ++ rest)
  have hs := fmFindClose_some_of mid (List.drop 4 raw) rest hdrop
  cases hf : fmFindClose (List.drop 4 raw) with
  | none => rw [hf] at hs; cases hs
  | some pr =>
    obtain ⟨m0, r0⟩ := pr
    have hsound := fmFindClose_sound _ _ _ hf
    have hle1 : m0.length ≤ mid.length :=
      fmFindClose_minimal _ _ _ hf mid rest hdrop
    have hle2 : mid.length ≤ m0.length :=
      hmin m0 r0 (hdrop.symm.trans hsound)
    have heq : m0 ++ (fmClose ++ r0) = mid ++ (fmClose ++ rest) := by
      have h5 := hsound.symm.trans hdrop
      simpa [List.append_assoc] using h5
    obtain ⟨hm, hr⟩ := List.append_inj heq (le_antisymm hle1 hle2)
    have hr' : r0 = rest := List.append_cancel_left hr
    unfold stripFrontmatter
    rw [if_pos h4, hf, hr']

/-! ## Helper lemmas: the forced-extension strip -/

/-- When the path ends in a dot followed by a non-empty dot-free run, the
JavaScript replace strips exactly that suffix. -/
theorem stripLastExt_strip (pre suf : Str) (hne : suf ≠ []) (hnd : '.' ∉ suf) :
    stripLastExt (pre ++ '.' :: suf) = pre := by
  have hpred : ∀ x ∈ suf.reverse, notDot x = true := by
    intro x hx
    have hxs : x ∈ suf := by simpa using hx
    have hxd : x ≠ '.' := fun h => hnd (h ▸ hxs)
    simp [notDot, hxd]
  have hdot : notDot '.' = false := by simp [notDot]
  have hr : (pre ++ '.' :: suf).reverse = suf.reverse ++ '.' :: pre.reverse := by
    simp
  have ht : (suf.reverse ++ '.' :: pre.reverse).takeWhile notDot = suf.reverse :=
    takeWhile_append_cons notDot suf.reverse pre.reverse '.' hpred hdot
  have h1 : ¬(suf.reverse.isEmpty = true) := by
    simp [List.isEmpty_iff, hne]
  have h2 : ¬(suf.reverse.length = (suf.reverse ++ '.' :: pre.reverse).length) := by
    simp only [List.length_append, List.length_cons, List.length_reverse]
    omega
  simp only [stripLastExt, hr, ht]
  rw [if_neg h1, if_neg h2]
  rw [show (suf.reverse ++ '.' :: pre.reverse : Str)
        = (suf.reverse ++ ['.']) ++ pre.reverse from by simp,
    show suf.reverse.length + 1 = (suf.reverse ++ ['.'] : Str).length from by simp,
    List.drop_left]
  simp

/-- When the path has no such suffix — it has no dot at all, or ends in a
dot — the JavaScript replace leaves it unchanged. -/
theorem stripLastExt_id (p : Str)
    (hno : ¬ ∃ pre suf, p = pre ++ '.' :: suf ∧ suf ≠ [] ∧ '.' ∉ suf) :
    stripLastExt p = p := by
  by_cases h1 : (p.reverse.takeWhile notDot).isEmpty = true
  · simp only [stripLastExt]
    rw [if_pos h1]
  · by_cases h2 : (p.reverse.takeWhile notDot).length = p.reverse.length
    · simp only [stripLastExt]
      rw [if_neg h1, if_pos h2]
    · exfalso
      apply hno
      have hle : (p.reverse.takeWhile notDot).length ≤ p.reverse.length :=
        List.Sublist.length_le (List.takeWhile_sublist notDot)
      have hlt : (p.reverse.takeWhile notDot).length < p.reverse.length := by
        omega
      obtain ⟨c, t, hsplit, hc⟩ := takeWhile_split notDot p.reverse hlt
      have hcdot : c = '.' := by simpa [notDot] using hc
      subst hcdot
      have hp : p = (p.reverse.takeWhile notDot ++ '.' :: t).reverse := by
        conv_lhs => rw [← List.reverse_reverse p, hsplit]
      have htw : (p.reverse.takeWhile notDot ++ '.' :: t).takeWhile notDot
          = p.reverse.takeWhile notDot :=
        takeWhile_append_cons notDot _ t '.'
          (fun x hx => mem_takeWhile_pred notDot p.reverse x hx)
          (by simp [notDot])
      refine ⟨t.reverse, (p.reverse.takeWhile notDot).reverse, ?_, ?_, ?_⟩
      · rw [hp]
        simp
        exact htw.symm
      · intro hnil
        apply h1
        have : p.reverse.takeWhile notDot = [] := by
          have := congrArg List.reverse hnil
          simpa using this
        simp [this]
      · intro hmem
        have hmem' : '.' ∈ p.reverse.takeWhile notDot := by
          simpa using hmem
        have := mem_takeWhile_pred notDot p.reverse '.' hmem'
        simp [notDot] at this

/-! ## Helper lemmas: batch aggregation -/

/-- Keep the successful results of a per-file outcome list. -/
def okPart (outs : List (Except PushFailure PushResult)) : List PushResult :=
  outs.filterMap (fun o => match o with
    | Except.ok r => some r
    | Except.error _ => none)

/-- Keep the failure records of a per-file outcome list. -/
def errPart (outs : List (Except PushFailure PushResult)) : List PushFailure :=
  outs.filterMap (fun o => match o with
    | Except.ok _ => none
    | Except.error e => some e)

theorem okPart_errPart_length (outs : List (Except PushFailure PushResult)) :
    (okPart outs).length + (errPart outs).length = outs.length := by
  induction outs with
  | nil => rfl
  | cons o t ih =>
    cases o with
    | ok r =>
      simp only [okPart, errPart, List.filterMap_cons] at ih ⊢
      simp only [List.length_cons]
      omega
    | error e =>
      simp only [okPart, errPart, List.filterMap_cons] at ih ⊢
      simp only [List.length_cons]
      omega

theorem pushSingleFile_source (st : St) (f : FileT) (ctx : PushContext)
    (tr : TransformOptions) (env : PushEnv) (r : PushResult)
    (h : (pushSingleFile st f ctx tr env).out = Except.ok r) :
    r.source = f.path := by
  obtain ⟨d, wf, wl, rf, uf⟩ := env
  cases wf with
  | some code => simp [pushSingleFile] at h
  | none =>
    cases rf with
    | some code => simp [pushSingleFile] at h
    | none =>
      simp only [pushSingleFile, Except.ok.injEq] at h
      rw [← h]

/-- Every batch push partitions its input: there is a per-file outcome list,
aligned with the input order, whose successes and failures are exactly the
two returned sequences. -/
theorem pushMultiple_partition (files : List FileT) : ∀ (st : St)
    (ctx : PushContext) (tr : TransformOptions) (env : Nat → PushEnv),
    ∃ outs : List (Except PushFailure PushResult),
      List.Forall₂ (fun (f : FileT) (o : Except PushFailure PushResult) =>
        match o with
        | Except.ok r => r.source = f.path
        | Except.error e => e.file = f.path) files outs ∧
      (pushMultiple st files ctx tr env).1.successes = okPart outs ∧
      (pushMultiple st files ctx tr env).1.failures = errPart outs := by
  induction files with
  | nil =>
    intro st ctx tr env
    exact ⟨[], List.Forall₂.nil, rfl, rfl⟩
  | cons f rest ih =>
    intro st ctx tr env
    obtain ⟨outs', hF, hs, hf⟩ := ih
      (finalState st (pushSingleFile st f ctx tr (env 0))) ctx tr
      (fun i => env (i + 1))
    cases hout : (pushSingleFile st f ctx tr (env 0)).out with
    | ok r =>
      refine ⟨Except.ok r :: outs', ?_, ?_, ?_⟩
      · exact List.Forall₂.cons
          (pushSingleFile_source st f ctx tr (env 0) r hout) hF
      · simp only [pushMultiple, hout]
        simp only [okPart, List.filterMap_cons] at hs ⊢
        exact congrArg (r :: ·) hs
      · simp only [pushMultiple, hout]
        simp only [errPart, List.filterMap_cons] at hf ⊢
        exact hf
    | error e =>
      refine ⟨Except.error
        { file := f.path, error := e.message, code := e.code } :: outs',
        ?_, ?_, ?_⟩
      · exact List.Forall₂.cons rfl hF
      · simp only [pushMultiple, hout]
        simp only [okPart, List.filterMap_cons] at hs ⊢
        exact hs
      · simp only [pushMultiple, hout]
        simp only [errPart, List.filterMap_cons] at hf ⊢
        exact congrArg (_ :: ·) hf

/-! ## Claim theorems -/

/-- C8: the pull-side path computation `computeTargetFilePath` of the plugin
layer and the push-side destination computation inside `pushSingleFile` are
equal as functions: for every file, context and transform options they
produce the same absolute path. -/
theorem C8_pull_push_path_equal (file : FileT) (ctx : PushContext)
    (tr : TransformOptions) : computeTargetFilePath file ctx tr = destPathOf file ctx tr :=
  rfl

/-- C5: with no forced extension, `replicateFolders = false` sends a document
to the target base joined with only the final segment (basename) of its
logical path — a segment free of separators, a true suffix of the path —
while `replicateFolders = true` joins the full logical path, preserving every
directory component. -/
theorem C5_folder_replication (f : FileT) (ctx : PushContext)
    (tr : TransformOptions) (hfe : optTruthy tr.forceExtension = false) :
    (ctx.replicateFolders = false →
      destPathOf f ctx tr = joinPath ctx.targetBase (basename f.path)) ∧
    (ctx.replicateFolders = true →
      destPathOf f ctx tr = joinPath ctx.targetBase f.path) ∧
    '/' ∉ basename f.path ∧
    (∃ pre, pre ++ basename f.path = f.path) := by
  refine ⟨?_, ?_, ?_, basename_suffix f.path⟩
  · intro hrep
    cases hx : tr.forceExtension with
    | none => simp [destPathOf, hrep, hx]
    | some s =>
      rw [hx] at hfe
      simp only [optTruthy, Bool.not_eq_false'] at hfe
      have hs : s = [] := by simpa using hfe
      simp [destPathOf, hrep, hx, hs]
  · intro hrep
    cases hx : tr.forceExtension with
    | none => simp [destPathOf, hrep, hx]
    | some s =>
      rw [hx] at hfe
      simp only [optTruthy, Bool.not_eq_false'] at hfe
      have hs : s = [] := by simpa using hfe
      simp [destPathOf, hrep, hx, hs]
  · intro hmem
    have hmem' : '/' ∈ f.path.reverse.takeWhile notSlash := by
      simpa [basename] using hmem
    have := mem_takeWhile_pred notSlash f.path.reverse '/' hmem'
    simp [notSlash] at this

/-- C9: a pull overwrites the document content with exactly the content of
the computed target path when it exists; otherwise, with a truthy forced
extension, with exactly the content of the fallback path computed without
the extension override; and it leaves the document unchanged when neither
candidate exists.  No transform is applied in any case. -/
theorem C9_pull_resolution (st : St) (f : FileT) (ctx : PushContext)
    (tr : TransformOptions) :
    (∀ c, readFS st.files (computeTargetFilePath f ctx tr) = some c →
      pullFile st f ctx tr = ({ f with content := c }, PullOutcome.pulled)) ∧
    (readFS st.files (computeTargetFilePath f ctx tr) = none →
      optTruthy tr.forceExtension = true →
      ∀ c, readFS st.files (joinPath ctx.targetBase
          (if ctx.replicateFolders then f.path else basename f.path)) = some c →
      pullFile st f ctx tr = ({ f with content := c }, PullOutcome.pulledFallback)) ∧
    (readFS st.files (computeTargetFilePath f ctx tr) = none →
      readFS st.files (joinPath ctx.targetBase
          (if ctx.replicateFolders then f.path else basename f.path)) = none →
      pullFile st f ctx tr = (f, PullOutcome.notFound)) := by
  refine ⟨?_, ?_, ?_⟩
  · intro c hc
    simp [pullFile, hc]
  · intro hnone htruthy c hc
    simp [pullFile, hnone, htruthy, hc]
  · intro hnone hnone'
    by_cases htruthy : optTruthy tr.forceExtension = true
    · simp [pullFile, hnone, htruthy, hnone']
    · simp only [Bool.not_eq_true] at htruthy
      simp [pullFile, hnone, htruthy]

/-- C3 counterexample: `transformContent` is not a function of `(raw, opts)`
alone — with `addTimestampHeader` set, two evaluations whose sampled clock
values differ produce different content for the identical `(raw, opts)`
pair. -/
theorem C3_counterexample :
    transformContent [] ⟨false, true, ("YYYY").data, none⟩ ⟨2024, 0, 1, 0, 0, 0⟩ ≠
    transformContent [] ⟨false, true, ("YYYY").data, none⟩ ⟨2025, 0, 1, 0, 0, 0⟩ := by
  decide

/-- C3 (amended): `transformContent` is a pure function of `(raw, opts)` and
the clock value sampled when the timestamp step runs: with
`addTimestampHeader = false` the result is independent of the clock, and
with both flags off the result is the input content unchanged with
`transformed = false`. -/
theorem C3_transform_determinism (raw : Str) (opts : TransformOptions)
    (d d' : DateT) :
    (opts.addTimestampHeader = false →
      transformContent raw opts d = transformContent raw opts d') ∧
    (opts.sanitizeFrontmatter = false → opts.addTimestampHeader = false →
      transformContent raw opts d = (raw, false)) := by
  constructor
  · intro h
    simp [transformContent, h]
  · intro h1 h2
    simp [transformContent, h1, h2]

/-- Modelled from the claim's wording: a leading frontmatter block whose
closing `---` is itself a complete line — the delimiter is followed by a
newline or ends the content.  Scans for `\n---\n` anywhere, or `\n---` at
the very end. -/
def specCloseAt : Str → Bool
  | [] => false
  | c :: cs =>
    (List.take 5 (c :: cs) = ['\n', '-', '-', '-', '\n']) ||
    ((c :: cs) = fmClose) || specCloseAt cs

/-- Modelled from the claim's wording: the content begins with a line
containing exactly `---`, followed by any content, followed by a line
containing exactly `---` optionally followed by a trailing newline. -/
def specHasBlock (raw : Str) : Bool :=
  decide (List.take 4 raw = fmOpen) && specCloseAt (List.drop 4 raw)

/-- C2 counterexample: the regex does not require the closing `---` to end
its line.  `"---\nmid\n---xyz"` does not begin with a block in the claim's
sense (its third line is `---xyz`, not exactly `---`), yet the sanitize step
strips `"---\nmid\n---"` and reports a transform, where the claim demands
the content be left unchanged. -/
theorem C2_counterexample :
    specHasBlock ("---\nmid\n---xyz").data = false ∧
    transformContent ("---\nmid\n---xyz").data
        ⟨true, false, [], none⟩ ⟨0, 0, 0, 0, 0, 0⟩
      = (("xyz").data, true) := by
  decide

/-- C2 (amended): with `sanitizeFrontmatter` set, when the content is
`---\n` followed by a middle, the first occurrence of `\n---` and a rest —
the closing `---` need not end its line — the step strips that shortest
block plus one following newline when present and sets `transformed`;
content admitting no such decomposition passes through unchanged, and the
flag is set exactly when a decomposition exists. -/
theorem C2_frontmatter_strip (raw : Str) (opts : TransformOptions) (d : DateT)
    (hs : opts.sanitizeFrontmatter = true)
    (hts : opts.addTimestampHeader = false) :
    (∀ mid rest, raw = fmOpen ++ mid ++ fmClose ++ rest →
      (∀ mid' rest', mid ++ fmClose ++ rest = mid' ++ fmClose ++ rest' →
        mid.length ≤ mid'.length) →
      transformContent raw opts d = (dropOptNl rest, true)) ∧
    ((¬ ∃ mid rest, raw = fmOpen ++ mid ++ fmClose ++ rest) →
      transformContent raw opts d = (raw, false)) ∧
    ((transformContent raw opts d).2 = true ↔
      ∃ mid rest, raw = fmOpen ++ mid ++ fmClose ++ rest) := by
  refine ⟨?_, ?_, ?_⟩
  · intro mid rest hdecomp hmin
    have hstrip := stripFrontmatter_eq raw mid rest hdecomp hmin
    simp [transformContent, hs, hts, hstrip]
  · intro hno
    have hnone : stripFrontmatter raw = none := by
      cases hsf : stripFrontmatter raw with
      | none => rfl
      | some c =>
        exact absurd ((stripFrontmatter_isSome_iff raw).mp (by simp [hsf])) hno
    simp [transformContent, hs, hts, hnone]
  · constructor
    · intro h
      apply (stripFrontmatter_isSome_iff raw).mp
      cases hsf : stripFrontmatter raw with
      | none => simp [transformContent, hs, hts, hsf] at h
      | some c => simp
    · rintro ⟨mid, rest, hdecomp⟩
      have hsome := (stripFrontmatter_isSome_iff raw).mpr ⟨mid, rest, hdecomp⟩
      obtain ⟨c, hc⟩ := Option.isSome_iff_exists.mp hsome
      simp [transformContent, hs, hts, hc]

/-- C6 counterexample: with folder replication, logical path `a.b/c` and
forced extension `.txt` resolve to `targetBase/a.txt` — the regex
`/\.[^.]+$/` matches `.b/c` across the separator, so the directory
component `a.b` is altered, where the claim demands directory components be
left intact (which would give `targetBase/a.b/c.txt`). -/
theorem C6_counterexample :
    destPathOf ⟨("a.b/c").data, []⟩ ⟨true, true, ("/t").data⟩
        ⟨false, false, [], some ((".txt").data)⟩
      = ("/t/a.txt").data ∧
    ("/t/a.txt").data ≠ ("/t/a.b/c.txt").data := by
  decide

/-- C6 (amended): a present non-empty forced extension is applied to the
whole relative path by stripping the shortest trailing `.<non-dot-run>` —
when the relative path ends in a dot followed by a non-empty dot-free run
(which may cross `/`, altering directory components when the final segment
has no dot), exactly that suffix is replaced by the forced extension, and
when no such suffix exists the extension is appended as is; the forced
extension therefore appears exactly once at the end. -/
theorem C6_force_extension (f : FileT) (ctx : PushContext)
    (tr : TransformOptions) (fe : Str) (hfe : tr.forceExtension = some fe)
    (hne : fe ≠ []) :
    (destPathOf f ctx tr = joinPath ctx.targetBase
      (stripLastExt (if ctx.replicateFolders then f.path else basename f.path)
        ++ fe)) ∧
    (∀ pre suf,
      (if ctx.replicateFolders then f.path else basename f.path)
          = pre ++ '.' :: suf →
      suf ≠ [] → '.' ∉ suf →
      destPathOf f ctx tr = joinPath ctx.targetBase (pre ++ fe)) ∧
    ((¬ ∃ pre suf,
      (if ctx.replicateFolders then f.path else basename f.path)
          = pre ++ '.' :: suf ∧ suf ≠ [] ∧ '.' ∉ suf) →
      destPathOf f ctx tr = joinPath ctx.targetBase
        ((if ctx.replicateFolders then f.path else basename f.path) ++ fe)) := by
  have hbase : destPathOf f ctx tr = joinPath ctx.targetBase
      (stripLastExt (if ctx.replicateFolders then f.path else basename f.path)
        ++ fe) := by
    simp [destPathOf, hfe, hne]
  refine ⟨hbase, ?_, ?_⟩
  · intro pre suf hsplit hsne hsnd
    rw [hbase, hsplit, stripLastExt_strip pre suf hsne hsnd]
  · intro hno
    rw [hbase, stripLastExt_id _ hno]

theorem readFS_cleanupTmp_ne (st : St) (tmp q : Str) (uf : Bool)
    (h : q ≠ tmp) :
    readFS (cleanupTmp st tmp uf).files q = readFS st.files q := by
  unfold cleanupTmp
  by_cases he : existsFS st.files tmp = true
  · rw [if_pos he]
    by_cases hu : uf = true
    · rw [if_pos hu]
    · rw [if_neg hu]
      exact readFS_removeFS_ne st.files tmp q h
  · rw [if_neg he]

theorem cleanupTmp_dirs (st : St) (tmp : Str) (uf : Bool) :
    (cleanupTmp st tmp uf).dirs = st.dirs := by
  unfold cleanupTmp
  by_cases he : existsFS st.files tmp = true
  · rw [if_pos he]
    by_cases hu : uf = true
    · rw [if_pos hu]
    · rw [if_neg hu]
      rfl
  · rw [if_neg he]

/-- C7: during a push, an observer of the final destination path never sees
partial content.  Every filesystem state visited by `pushSingleFile` — after
the directory creation, the temporary-file write (even a partial one left by
a failed write), the cleanup, or the rename — shows at the final path either
exactly what was there initially (possibly nothing) or the complete
transformed content, the latter only on the successful branch whose atomic
rename installed it. -/
theorem C7_atomic_visibility (st : St) (f : FileT) (ctx : PushContext)
    (tr : TransformOptions) (env : PushEnv) (σ : St)
    (hmem : σ ∈ (pushSingleFile st f ctx tr env).states) :
    readFS σ.files
        (resolveCollision st.files ctx.overwriteExisting (destPathOf f ctx tr))
      = readFS st.files
        (resolveCollision st.files ctx.overwriteExisting (destPathOf f ctx tr)) ∨
    ((∃ r, (pushSingleFile st f ctx tr env).out = Except.ok r) ∧
      readFS σ.files
        (resolveCollision st.files ctx.overwriteExisting (destPathOf f ctx tr))
      = some (transformContent f.content tr env.now).1) := by
  obtain ⟨d, wf, wl, rf, uf⟩ := env
  have hne := ne_append_tmp
    (resolveCollision st.files ctx.overwriteExisting (destPathOf f ctx tr))
  cases wf with
  | some code =>
    cases wl with
    | some part =>
      simp only [pushSingleFile, List.mem_cons, List.mem_singleton] at hmem
      rcases hmem with h | h | h | h | h
      · subst h; exact Or.inl rfl
      · subst h; exact Or.inl rfl
      · subst h
        exact Or.inl (readFS_cons_ne _ _ _ _ hne)
      · subst h
        left
        rw [readFS_cleanupTmp_ne _ _ _ _ hne]
        exact readFS_cons_ne _ _ _ _ hne
      · cases h
    | none =>
      simp only [pushSingleFile, List.mem_cons, List.mem_singleton] at hmem
      rcases hmem with h | h | h | h | h
      · subst h; exact Or.inl rfl
      · subst h; exact Or.inl rfl
      · subst h; exact Or.inl rfl
      · subst h
        left
        rw [readFS_cleanupTmp_ne _ _ _ _ hne]
      · cases h
  | none =>
    cases rf with
    | some code =>
      simp only [pushSingleFile, List.mem_cons, List.mem_singleton] at hmem
      rcases hmem with h | h | h | h | h
      · subst h; exact Or.inl rfl
      · subst h; exact Or.inl rfl
      · subst h
        exact Or.inl (readFS_cons_ne _ _ _ _ hne)
      · subst h
        left
        rw [readFS_cleanupTmp_ne _ _ _ _ hne]
        exact readFS_cons_ne _ _ _ _ hne
      · cases h
    | none =>
      simp only [pushSingleFile, List.mem_cons, List.mem_singleton] at hmem
      rcases hmem with h | h | h | h | h
      · subst h; exact Or.inl rfl
      · subst h; exact Or.inl rfl
      · subst h
        exact Or.inl (readFS_cons_ne _ _ _ _ hne)
      · subst h
        right
        refine ⟨⟨_, rfl⟩, ?_⟩
        simp only [renameF, writeF, removeF, readFS_cons_self]
      · cases h

/-- C10: content is written only to the temporary path `finalPath + ".tmp"`
and renamed onto the final path only on success.  Whenever the write or the
rename fails and a `PushError` is thrown, the file at the final path is
exactly as before the operation — no new or partial content — while the
parent directory created earlier in the operation persists. -/
theorem C10_error_leaves_dest_intact (st : St) (f : FileT) (ctx : PushContext)
    (tr : TransformOptions) (env : PushEnv) (e : PushError)
    (herr : (pushSingleFile st f ctx tr env).out = Except.error e) :
    readFS (finalState st (pushSingleFile st f ctx tr env)).files
        (resolveCollision st.files ctx.overwriteExisting (destPathOf f ctx tr))
      = readFS st.files
        (resolveCollision st.files ctx.overwriteExisting (destPathOf f ctx tr)) ∧
    (finalState st (pushSingleFile st f ctx tr env)).dirs
      = dirname (destPathOf f ctx tr) :: st.dirs := by
  obtain ⟨d, wf, wl, rf, uf⟩ := env
  have hne := ne_append_tmp
    (resolveCollision st.files ctx.overwriteExisting (destPathOf f ctx tr))
  cases wf with
  | some code =>
    cases wl with
    | some part =>
      simp only [pushSingleFile, finalState, List.getLastD_cons, List.getLastD_nil]
      constructor
      · rw [readFS_cleanupTmp_ne _ _ _ _ hne]
        exact readFS_cons_ne _ _ _ _ hne
      · rw [cleanupTmp_dirs]
        rfl
    | none =>
      simp only [pushSingleFile, finalState, List.getLastD_cons, List.getLastD_nil]
      constructor
      · rw [readFS_cleanupTmp_ne _ _ _ _ hne]
      · rw [cleanupTmp_dirs]
  | none =>
    cases rf with
    | some code =>
      simp only [pushSingleFile, finalState, List.getLastD_cons, List.getLastD_nil]
      constructor
      · rw [readFS_cleanupTmp_ne _ _ _ _ hne]
        exact readFS_cons_ne _ _ _ _ hne
      · rw [cleanupTmp_dirs]
        rfl
    | none =>
      simp [pushSingleFile] at herr

/-- C1: `pushMultiple` never raises — it is a total function into
`PushBatchResult` — and every batch result partitions its input: there is a
per-file outcome list aligned with the input order (a success whose `source`
is the file's logical path, or a failure whose `file` is that path, never
both) whose two projections, each preserving encounter order, are exactly
the returned `successes` and `failures`, with lengths summing to the number
of inputs. -/
theorem C1_batch_partition (st : St) (files : List FileT) (ctx : PushContext)
    (tr : TransformOptions) (env : Nat → PushEnv) :
    ∃ outs : List (Except PushFailure PushResult),
      List.Forall₂ (fun (f : FileT) (o : Except PushFailure PushResult) =>
        match o with
        | Except.ok r => r.source = f.path
        | Except.error e => e.file = f.path) files outs ∧
      (pushMultiple st files ctx tr env).1.successes = okPart outs ∧
      (pushMultiple st files ctx tr env).1.failures = errPart outs ∧
      (pushMultiple st files ctx tr env).1.successes.length +
        (pushMultiple st files ctx tr env).1.failures.length = files.length := by
  obtain ⟨outs, hF, hs, hf⟩ := pushMultiple_partition files st ctx tr env
  refine ⟨outs, hF, hs, hf, ?_⟩
  rw [hs, hf, okPart_errPart_length]
  exact hF.length_eq.symm

theorem collisionSeq_inj (dest : Str) :
    Function.Injective (collisionSeq dest) := by
  intro x y hxy
  have hsplit := dest_split dest
  unfold collisionSeq destCand at hxy
  by_cases hx : x = 0 <;> by_cases hy : y = 0
  · omega
  · rw [if_pos hx, if_neg hy] at hxy
    exact absurd hxy (dest_ne_cand dest _ _ y hsplit)
  · rw [if_neg hx, if_pos hy] at hxy
    exact absurd hxy.symm (dest_ne_cand dest _ _ x hsplit)
  · rw [if_neg hx, if_neg hy] at hxy
    exact candPath_inj _ _ x y hxy

/-- C4: if overwriting is enabled or the destination is free, the collision
resolver keeps the destination unchanged; otherwise it returns the candidate
`base-<i><extension>` for the smallest `i ≥ 1` whose path does not exist;
consequently `N` clean consecutive pushes of the same logical path with
overwriting disabled produce exactly the pairwise distinct final paths
`base, base-1, ..., base-(N-1)`, in order, with no failure. -/
theorem C4_collision_policy :
    (∀ (fs : FS) (ov : Bool) (dest : Str),
      ov = true ∨ existsFS fs dest = false →
      resolveCollision fs ov dest = dest) ∧
    (∀ (fs : FS) (dest : Str) (i0 : Nat),
      existsFS fs dest = true → 1 ≤ i0 →
      existsFS fs (destCand dest i0) = false →
      (∀ j, 1 ≤ j → j < i0 → existsFS fs (destCand dest j) = true) →
      resolveCollision fs false dest = destCand dest i0) ∧
    (∀ (st : St) (f : FileT) (ctx : PushContext) (tr : TransformOptions)
      (env : Nat → PushEnv) (N : Nat),
      ctx.overwriteExisting = false →
      (∀ i, (env i).writeFail = none ∧ (env i).renameFail = none) →
      existsFS st.files (destPathOf f ctx tr) = false →
      (∀ j, 1 ≤ j → existsFS st.files (destCand (destPathOf f ctx tr) j) = false) →
      (pushMultiple st (List.replicate N f) ctx tr env).1.successes.map
          (fun r => r.finalPath)
        = (List.range N).map (collisionSeq (destPathOf f ctx tr)) ∧
      (pushMultiple st (List.replicate N f) ctx tr env).1.failures = [] ∧
      ((List.range N).map (collisionSeq (destPathOf f ctx tr))).Nodup) := by
  refine ⟨resolveCollision_id, ?_, ?_⟩
  · intro fs dest i0 hdest h1 hfree hall
    exact resolveCollision_eq_cand fs dest _ _ i0 rfl rfl hdest h1 hfree hall
  · intro st f ctx tr env N hov henv hdest hfree
    have hnodup : ((List.range N).map
        (collisionSeq (destPathOf f ctx tr))).Nodup :=
      (List.nodup_range N).map (collisionSeq_inj (destPathOf f ctx tr))
    cases N with
    | zero =>
      refine ⟨?_, ?_, hnodup⟩ <;> simp [pushMultiple]
    | succ m =>
      obtain ⟨hout, hdest1, hinv1⟩ := push_step_first st f ctx tr (env 0)
        (destPathOf f ctx tr) _ _ rfl rfl rfl (henv 0).1 (henv 0).2 hdest hfree
      obtain ⟨hs, hff⟩ := pushN_tail f ctx tr (destPathOf f ctx tr) _ _ rfl rfl
        rfl hov m (finalState st (pushSingleFile st f ctx tr (env 0))) 1
        (fun i => env (i + 1)) (fun i => henv (i + 1)) le_rfl hdest1 hinv1
      refine ⟨?_, ?_, hnodup⟩
      · simp only [List.replicate_succ, pushMultiple, hout, List.map_cons]
        rw [hs, List.range_succ_eq_map, List.map_cons, List.map_map]
        congr 1
        apply List.map_congr_left
        intro t ht
        simp only [Function.comp_apply, collisionSeq, destCand]
        rw [if_neg (by omega : ¬(Nat.succ t = 0))]
        congr 1
        omega
      · simp only [List.replicate_succ, pushMultiple, hout]
        exact hff

/-! ## Witnesses -/

/-- Witness for C5 on the spec's example path `folder/sub/note.md`. -/
theorem C5_witness :
    (destPathOf ⟨("folder/sub/note.md").data, []⟩ ⟨false, true, ("/t").data⟩
        ⟨false, false, [], none⟩
      = joinPath ("/t").data (basename ("folder/sub/note.md").data)) ∧
    (destPathOf ⟨("folder/sub/note.md").data, []⟩ ⟨true, true, ("/t").data⟩
        ⟨false, false, [], none⟩
      = joinPath ("/t").data ("folder/sub/note.md").data) ∧
    joinPath ("/t").data (basename ("folder/sub/note.md").data)
      = ("/t/note.md").data := by
  refine ⟨(C5_folder_replication _ _ _ (by decide)).1 rfl,
    (C5_folder_replication _ _ _ (by decide)).2.1 rfl, by decide⟩

/-- Witness for C9: pull, fallback pull, and missing-file pull on concrete
states. -/
theorem C9_witness :
    pullFile ⟨[(("/t/a/n.md").data, ("Z").data)], []⟩
        ⟨("a/n.md").data, ("old").data⟩ ⟨true, true, ("/t").data⟩
        ⟨false, false, [], none⟩
      = (⟨("a/n.md").data, ("Z").data⟩, PullOutcome.pulled) ∧
    pullFile ⟨[(("/t/a/n.md").data, ("Z").data)], []⟩
        ⟨("a/n.md").data, ("old").data⟩ ⟨true, true, ("/t").data⟩
        ⟨false, false, [], some ((".txt").data)⟩
      = (⟨("a/n.md").data, ("Z").data⟩, PullOutcome.pulledFallback) ∧
    pullFile ⟨[], []⟩ ⟨("a/n.md").data, ("old").data⟩ ⟨true, true, ("/t").data⟩
        ⟨false, false, [], none⟩
      = (⟨("a/n.md").data, ("old").data⟩, PullOutcome.notFound) := by
  refine ⟨?_, ?_, ?_⟩
  · exact (C9_pull_resolution _ _ _ _).1 (("Z").data) (by decide)
  · exact (C9_pull_resolution ⟨[(("/t/a/n.md").data, ("Z").data)], []⟩
      ⟨("a/n.md").data, ("old").data⟩ ⟨true, true, ("/t").data⟩
      ⟨false, false, [], some ((".txt").data)⟩).2.1 (by decide) rfl
      (("Z").data) (by decide)
  · exact (C9_pull_resolution _ _ _ _).2.2 rfl rfl

/-- Witness for C3 (amended): clock independence without the timestamp step,
and identity with both flags off. -/
theorem C3_witness :
    transformContent ("x").data ⟨true, false, [], none⟩ ⟨1, 1, 1, 1, 1, 1⟩
      = transformContent ("x").data ⟨true, false, [], none⟩ ⟨2, 2, 2, 2, 2, 2⟩ ∧
    transformContent ("x").data ⟨false, false, [], none⟩ ⟨1, 1, 1, 1, 1, 1⟩
      = (("x").data, false) := by
  constructor
  · exact (C3_transform_determinism _ _ _ _).1 rfl
  · exact (C3_transform_determinism ("x").data ⟨false, false, [], none⟩
      ⟨1, 1, 1, 1, 1, 1⟩ ⟨1, 1, 1, 1, 1, 1⟩).2 rfl rfl

/-- Witness for C2 (amended): a block with empty middle is stripped together
with the following newline, and dash-free content passes unchanged. -/
theorem C2_witness :
    transformContent ("---\n\n---\nB").data ⟨true, false, [], none⟩
        ⟨0, 0, 0, 0, 0, 0⟩ = (("B").data, true) ∧
    transformContent ("Body").data ⟨true, false, [], none⟩
        ⟨0, 0, 0, 0, 0, 0⟩ = (("Body").data, false) := by
  constructor
  · exact (C2_frontmatter_strip (("---\n\n---\nB").data)
      ⟨true, false, [], none⟩ ⟨0, 0, 0, 0, 0, 0⟩ rfl rfl).1 [] (("\nB").data)
      (by decide) (fun m' r' hh => Nat.zero_le _)
  · apply (C2_frontmatter_strip (("Body").data)
      ⟨true, false, [], none⟩ ⟨0, 0, 0, 0, 0, 0⟩ rfl rfl).2.1
    rintro ⟨mid, rest, hdec⟩
    have hhead := congrArg (fun l => List.take 1 l) hdec
    simp [fmOpen] at hhead

/-- Witness for C6 (amended) on the spec's example: `notes/x.markdown` with
forced extension `.txt` resolves through `notes/x` to a path ending in
`x.txt`. -/
theorem C6_witness :
    destPathOf ⟨("notes/x.markdown").data, []⟩ ⟨true, true, ("/t").data⟩
        ⟨false, false, [], some ((".txt").data)⟩
      = joinPath ("/t").data (("notes/x").data ++ (".txt").data) ∧
    joinPath ("/t").data (("notes/x").data ++ (".txt").data)
      = ("/t/notes/x.txt").data := by
  refine ⟨(C6_force_extension _ _ _ _ rfl (by decide)).2.1
    (("notes/x").data) (("markdown").data) (by decide) (by decide) (by decide),
    by decide⟩

/-- Witness for C7: the final state of a clean push shows the complete
transformed content at the final path. -/
theorem C7_witness :
    readFS (finalState ⟨[], []⟩ (pushSingleFile ⟨[], []⟩
        ⟨("a").data, ("X").data⟩ ⟨true, true, []⟩ ⟨false, false, [], none⟩
        (cleanEnv ⟨0, 0, 0, 0, 0, 0⟩))).files
      (resolveCollision [] true (destPathOf ⟨("a").data, ("X").data⟩
        ⟨true, true, []⟩ ⟨false, false, [], none⟩))
      = readFS ([] : FS)
        (resolveCollision [] true (destPathOf ⟨("a").data, ("X").data⟩
          ⟨true, true, []⟩ ⟨false, false, [], none⟩)) ∨
    ((∃ r, (pushSingleFile ⟨[], []⟩ ⟨("a").data, ("X").data⟩ ⟨true, true, []⟩
        ⟨false, false, [], none⟩ (cleanEnv ⟨0, 0, 0, 0, 0, 0⟩)).out
        = Except.ok r) ∧
      readFS (finalState ⟨[], []⟩ (pushSingleFile ⟨[], []⟩
          ⟨("a").data, ("X").data⟩ ⟨true, true, []⟩ ⟨false, false, [], none⟩
          (cleanEnv ⟨0, 0, 0, 0, 0, 0⟩))).files
        (resolveCollision [] true (destPathOf ⟨("a").data, ("X").data⟩
          ⟨true, true, []⟩ ⟨false, false, [], none⟩))
      = some (transformContent ("X").data ⟨false, false, [], none⟩
          ⟨0, 0, 0, 0, 0, 0⟩).1) :=
  C7_atomic_visibility ⟨[], []⟩ ⟨("a").data, ("X").data⟩ ⟨true, true, []⟩
    ⟨false, false, [], none⟩ (cleanEnv ⟨0, 0, 0, 0, 0, 0⟩) _ (by decide)

/-- Witness for C10: a push whose write fails with `EACCES` leaves the empty
filesystem empty at the destination while the created directory persists. -/
theorem C10_witness :
    readFS (finalState ⟨[], []⟩ (pushSingleFile ⟨[], []⟩
        ⟨("a").data, ("X").data⟩ ⟨true, true, []⟩ ⟨false, false, [], none⟩
        ⟨⟨0, 0, 0, 0, 0, 0⟩, some (some (("EACCES").data)), none, none, false⟩)).files
      (resolveCollision [] true (destPathOf ⟨("a").data, ("X").data⟩
        ⟨true, true, []⟩ ⟨false, false, [], none⟩))
      = readFS ([] : FS)
        (resolveCollision [] true (destPathOf ⟨("a").data, ("X").data⟩
          ⟨true, true, []⟩ ⟨false, false, [], none⟩)) ∧
    (finalState ⟨[], []⟩ (pushSingleFile ⟨[], []⟩ ⟨("a").data, ("X").data⟩
        ⟨true, true, []⟩ ⟨false, false, [], none⟩
        ⟨⟨0, 0, 0, 0, 0, 0⟩, some (some (("EACCES").data)), none, none, false⟩)).dirs
      = dirname (destPathOf ⟨("a").data, ("X").data⟩ ⟨true, true, []⟩
          ⟨false, false, [], none⟩) :: [] :=
  C10_error_leaves_dest_intact ⟨[], []⟩ ⟨("a").data, ("X").data⟩
    ⟨true, true, []⟩ ⟨false, false, [], none⟩
    ⟨⟨0, 0, 0, 0, 0, 0⟩, some (some (("EACCES").data)), none, none, false⟩
    (mkPushError (some (("EACCES").data))
      (resolveCollision [] true (destPathOf ⟨("a").data, ("X").data⟩
        ⟨true, true, []⟩ ⟨false, false, [], none⟩))) rfl

/-- Witness for C4: the resolver keeps a free destination, picks `a-1.md`
next to an existing `a.md`, and three clean pushes produce
`a.md, a-1.md, a-2.md`. -/
theorem C4_witness :
    resolveCollision [] false ("a").data = ("a").data ∧
    resolveCollision [(("a.md").data, [])] false ("a.md").data
      = destCand ("a.md").data 1 ∧
    destCand ("a.md").data 1 = ("a-1.md").data ∧
    ((pushMultiple ⟨[], []⟩ (List.replicate 3 ⟨("a.md").data, ("X").data⟩)
        ⟨true, false, []⟩ ⟨false, false, [], none⟩
        (fun _ => cleanEnv ⟨0, 0, 0, 0, 0, 0⟩)).1.successes.map
        (fun r => r.finalPath)
      = (List.range 3).map (collisionSeq (destPathOf ⟨("a.md").data, ("X").data⟩
          ⟨true, false, []⟩ ⟨false, false, [], none⟩))) ∧
    (List.range 3).map (collisionSeq (destPathOf ⟨("a.md").data, ("X").data⟩
        ⟨true, false, []⟩ ⟨false, false, [], none⟩))
      = [("a.md").data, ("a-1.md").data, ("a-2.md").data] := by
  refine ⟨C4_collision_policy.1 [] false (("a").data) (Or.inr rfl),
    C4_collision_policy.2.1 [(("a.md").data, [])] (("a.md").data) 1 (by decide)
      le_rfl (by decide) (fun j h1 h2 => absurd h2 (by omega)),
    by decide,
    (C4_collision_policy.2.2 ⟨[], []⟩ ⟨("a.md").data, ("X").data⟩
      ⟨true, false, []⟩ ⟨false, false, [], none⟩
      (fun _ => cleanEnv ⟨0, 0, 0, 0, 0, 0⟩) 3 rfl (fun _ => ⟨rfl, rfl⟩) rfl
      (fun j hj => rfl)).1,
    by decide⟩
